import Mathlib

/-!
Verification of golangci-config-generator: parsing, filtering and seeding.

A shallow embedding of `cmd/golangci-config-generator/main.go`.

* A Go `string` / `[]byte` is a sequence of bytes: `Str := List Nat`, every
  element below 256 in a well-formed value.
* A Go `map[string]struct{}` is a finite set of keys: `Dict`, a key list.
* The file system and the subprocess are explicit values that are passed in
  and handed back.
-/

namespace GolangciConfigGenerator

/-! ## Strings -/

/-- A Go string: its bytes. -/
abbrev Str := List Nat

/-- The bytes of an ASCII literal. -/
def ascii (s : String) : Str := s.data.map Char.toNat

/-- The separator of `strings.Split(_, "\n")`. -/
def newline : Nat := 10

/-- The separator of `strings.Split(_, ":")`. -/
def colon : Nat := 58

/-- The separator of `strings.Split(_, " ")`. -/
def space : Nat := 32

/-- The literal `"Disabled"`. -/
def Disabled : Str := [68, 105, 115, 97, 98, 108, 101, 100]

/-- The literal `"Enabled"`. -/
def Enabled : Str := [69, 110, 97, 98, 108, 101, 100]

/-- `strings.Split(s, sep)` for a one-byte separator: the pieces of `s` between
the occurrences of `sep`, in order; never an empty slice. -/
def Split : Str → Nat → List Str
  | [], _ => [[]]
  | c :: cs, sep =>
    if c = sep then [] :: Split cs sep
    else
      match Split cs sep with
      | [] => [[c]]
      | p :: ps => (c :: p) :: ps

/-- `strings.HasPrefix(s, prefix)`. -/
def HasPrefix : Str → Str → Bool
  | _, [] => true
  | [], _ :: _ => false
  | c :: cs, p :: ps => c = p && HasPrefix cs ps

/-- `strings.Contains(s, substr)`: `substr` occurs in `s` at some offset. -/
def Contains : Str → Str → Bool
  | [], substr => HasPrefix [] substr
  | c :: cs, substr => HasPrefix (c :: cs) substr || Contains cs substr

/-- The Go comparison `a < b` of two strings: byte-wise lexicographic, a proper
prefix being smaller. -/
def strLess : Str → Str → Bool
  | [], [] => false
  | [], _ :: _ => true
  | _ :: _, [] => false
  | a :: as, b :: bs =>
    if a < b then true else if b < a then false else strLess as bs

/-- The Go comparison `a <= b` of two strings, that is `!(b < a)`. -/
def strLe (a b : Str) : Prop := strLess b a = false

instance strLe.decidable : DecidableRel strLe := fun a b =>
  inferInstanceAs (Decidable (strLess b a = false))

/-- `sort.Strings(x)`: `x` rearranged in increasing order. The library sorts in
place with an unstable algorithm; `strLe` is a total order whose equivalent
elements are equal, so the increasing rearrangement is unique
(`sortStrings_unique`) and insertion sort computes it. -/
def sortStrings (x : List Str) : List Str := x.insertionSort strLe

/-! ## `fetchLinterList` -/

/-- One pass of the loop body of `fetchLinterList` (lines 122-144): the value of
`linterList` after the iteration on `line`. -/
def fetchLinterList.step (linterList : List Str) (line : Str) : List Str :=
  match Split line colon with
  | [] => linterList
  | line :: _ =>
    match Split line space with
    | [] => linterList
    | linter :: _ =>
      if Contains linter Disabled || Contains linter Enabled || linter.length == 0 then
        linterList
      else
        linterList ++ [linter]

/-- The loop of `fetchLinterList` over `lineList` (lines 120-144): the value of
`linterList` when the loop ends. -/
def fetchLinterList.collect (lineList : List Str) : List Str :=
  lineList.foldl fetchLinterList.step []

/-- The loop of `fetchLinterList` over `lineList` followed by `sort.Strings`
(lines 120-148). -/
def fetchLinterList.parseLines (lineList : List Str) : List Str :=
  sortStrings (fetchLinterList.collect lineList)

/-- The parsing part of `fetchLinterList` (lines 118-148), on the text captured
from the standard output of the subprocess. -/
def fetchLinterList.parse (stdout : Str) : List Str :=
  fetchLinterList.parseLines (Split stdout newline)

/-- The outcome of `command.Run()` for `golangci-lint linters`: the error it
returned, if any, and the two captured streams. -/
structure Run where
  /-- The text of the error returned by `command.Run()`; `none` on success. -/
  err : Option Str
  /-- The content of the `stdout` buffer. -/
  stdout : Str
  /-- The content of the `stderr` buffer. -/
  stderr : Str

/-- The errors the program reports, one constructor per `fmt.Errorf` site. -/
inductive Err where
  /-- `"%w: %s"` of `fetchLinterList`: the run error and the captured stderr. -/
  | run (cause stderr : Str)
  /-- `"failed to stat file: %w"`. -/
  | statFile
  /-- `"failed to write file: %w"`. -/
  | writeFile
  /-- `"failed to read file: %w"` of `readFile`. -/
  | readFile
  /-- `"failed to read file: %w"` of `readDisabledDict` and `readTemplateText`. -/
  | wrapped (cause : Err)
  deriving DecidableEq

/-- `fetchLinterList` (lines 107-149), given the outcome of the subprocess. -/
def fetchLinterList (r : Run) : Except Err (List Str) :=
  match r.err with
  | some e => .error (.run e r.stderr)
  | none => .ok (fetchLinterList.parse r.stdout)

/-! ## The disabled set and the filter loop of `main` -/

/-- A Go `map[string]struct{}`: the list of its keys, each listed once. -/
structure Dict where
  /-- The keys of the map. -/
  keys : List Str
  deriving DecidableEq

/-- The map `make(map[string]struct{})`. -/
def Dict.empty : Dict := ⟨[]⟩

/-- The assignment `dict[k] = struct{}{}`. -/
def Dict.set (d : Dict) (k : Str) : Dict :=
  if k ∈ d.keys then d else ⟨k :: d.keys⟩

/-- The flag `ok` of `_, ok := dict[k]`. -/
def Dict.has (d : Dict) (k : Str) : Bool := decide (k ∈ d.keys)

/-- The filter loop of `main` (lines 29-35). -/
def main.filter (linterList : List Str) (disabledDict : Dict) : List Str :=
  linterList.foldl
    (fun filteredLinterList linter =>
      if !disabledDict.has linter then filteredLinterList ++ [linter]
      else filteredLinterList)
    []

/-- The UTF-8 encodings of the code points for which `unicode.IsSpace` holds:
U+0009..U+000D, U+0020, U+0085, U+00A0, U+1680, U+2000..U+200A, U+2028,
U+2029, U+202F, U+205F and U+3000. -/
def spaceEncodings : List Str :=
  [[9], [10], [11], [12], [13], [32], [0xC2, 0x85], [0xC2, 0xA0], [0xE1, 0x9A, 0x80],
   [0xE2, 0x80, 0x80], [0xE2, 0x80, 0x81], [0xE2, 0x80, 0x82], [0xE2, 0x80, 0x83],
   [0xE2, 0x80, 0x84], [0xE2, 0x80, 0x85], [0xE2, 0x80, 0x86], [0xE2, 0x80, 0x87],
   [0xE2, 0x80, 0x88], [0xE2, 0x80, 0x89], [0xE2, 0x80, 0x8A], [0xE2, 0x80, 0xA8],
   [0xE2, 0x80, 0xA9], [0xE2, 0x80, 0xAF], [0xE2, 0x81, 0x9F], [0xE3, 0x80, 0x80]]

/-- Drops from the front of `s` every leading occurrence of one of `encs`;
`fuel` bounds the number of occurrences dropped. -/
def dropLeading (encs : List Str) : Nat → Str → Str
  | 0, s => s
  | fuel + 1, s =>
    match encs.find? (fun e => HasPrefix s e) with
    | none => s
    | some e => dropLeading encs fuel (s.drop e.length)

/-- `strings.TrimSpace(s)`: `s` without its leading and trailing white space,
a white-space character being a well-formed UTF-8 encoding of a code point
with `unicode.IsSpace`. -/
def TrimSpace (s : Str) : Str :=
  let t := dropLeading spaceEncodings s.length s
  (dropLeading (spaceEncodings.map List.reverse) t.length t.reverse).reverse

/-- The constant `disabledBase`. -/
def disabledBase : Str := ascii "golint\ninterfacer\nmaligned\nscopelint\n"

/-- The loop of `readDisabledDict` (lines 59-62) on the content of the file. -/
def readDisabledDict.build (data : Str) : Dict :=
  (Split data newline).foldl (fun dict line => dict.set (TrimSpace line)) Dict.empty

/-! ## The file system and `readFile` -/

/-- The errors of `os.Stat`, `os.WriteFile` and `os.ReadFile`: the one that
`os.IsNotExist` recognises, and any other. -/
inductive OsErr where
  | notExist
  | other
  deriving DecidableEq

/-- `os.IsNotExist(err)`. -/
def OsErr.isNotExist : OsErr → Bool
  | .notExist => true
  | .other => false

/-- The file system: the content of every existing file, and for each path
whether the three system calls of `readFile` fail there for a reason other than
the absence of the file (permissions, a missing directory, a device error). -/
structure FS where
  /-- The content of the file at a path; `none` when no file exists there. -/
  files : Str → Option Str
  /-- Whether `os.Stat` fails at the path with an error other than not-exist. -/
  statFails : Str → Bool
  /-- Whether `os.WriteFile` fails at the path. -/
  writeFails : Str → Bool
  /-- Whether `os.ReadFile` fails at the path although the file exists. -/
  readFails : Str → Bool

/-- `os.Stat(name)`, reduced to its error. -/
def FS.stat (fs : FS) (name : Str) : Except OsErr Unit :=
  if fs.statFails name then .error .other
  else
    match fs.files name with
    | none => .error .notExist
    | some _ => .ok ()

/-- `os.WriteFile(name, data, os.ModePerm)`: on success the file at `name` holds
exactly `data` and every other file is as before; a failed write is taken to
leave the files as they were. -/
def FS.write (fs : FS) (name data : Str) : Except OsErr Unit × FS :=
  if fs.writeFails name then (.error .other, fs)
  else (.ok (), { fs with files := fun p => if p = name then some data else fs.files p })

/-- `os.ReadFile(name)`. -/
def FS.read (fs : FS) (name : Str) : Except OsErr Str :=
  if fs.readFails name then .error .other
  else
    match fs.files name with
    | none => .error .notExist
    | some data => .ok data

/-- `readFile` (lines 84-105): its result and the file system it leaves. -/
def readFile (fs : FS) (name base : Str) : Except Err Str × FS :=
  match fs.stat name with
  | .error err =>
    if !err.isNotExist then (.error .statFile, fs)
    else
      match fs.write name base with
      | (.error _, fs1) => (.error .writeFile, fs1)
      | (.ok _, fs1) => (.ok base, fs1)
  | .ok _ =>
    match fs.read name with
    | .error _ => (.error .readFile, fs)
    | .ok data => (.ok data, fs)

/-- The path `".golangci-disabled.txt"`. -/
def disabledPath : Str := ascii ".golangci-disabled.txt"

/-- `readDisabledDict` (lines 53-65): its result and the file system it leaves. -/
def readDisabledDict (fs : FS) : Except Err Dict × FS :=
  match readFile fs disabledPath disabledBase with
  | (.error err, fs1) => (.error (.wrapped err), fs1)
  | (.ok data, fs1) => (.ok (readDisabledDict.build data), fs1)

/-! ## The file systems of the examples -/

/-- A file system without any file, on which no system call fails. -/
def emptyFS : FS := ⟨fun _ => none, fun _ => false, fun _ => false, fun _ => false⟩

/-- A file system whose only file is `.golangci-disabled.txt`, holding `golint`
on one line without a final newline. -/
def golintFS : FS :=
  ⟨fun p => if p = disabledPath then some (ascii "golint") else none,
   fun _ => false, fun _ => false, fun _ => false⟩

/-! ## The specification's description of the same computations -/

/-- The token of a line in the words of the specification: the portion before
the first `:`, then the portion of that before the first space. -/
def Spec.token (line : Str) : Str :=
  (line.takeWhile (fun c => c != colon)).takeWhile (fun c => c != space)

/-- The test of the specification on a token: non-empty, and neither
`"Disabled"` nor `"Enabled"` occurs in it. -/
def Spec.keep (token : Str) : Bool :=
  decide (token ≠ [] ∧ ¬ Disabled <:+: token ∧ ¬ Enabled <:+: token)

/-- The tokens the specification collects from a list of lines. -/
def Spec.tokensOfLines (lineList : List Str) : List Str :=
  (lineList.map Spec.token).filter Spec.keep

/-- The tokens the specification collects from a text: its lines are the
pieces between newline characters. -/
def Spec.tokens (text : Str) : List Str :=
  Spec.tokensOfLines (text.splitOn newline)

/-- The disabled set in the words of the specification: the non-empty trimmed
lines of the content. -/
def Spec.disabledSet (content : Str) : Dict :=
  ⟨(((content.splitOn newline).map TrimSpace).filter (fun s => decide (s ≠ []))).dedup⟩

/-! ## Lemmas on the string functions -/

theorem Split_eq_cons (s : Str) (sep : Nat) :
    ∃ rest, Split s sep = s.takeWhile (fun c => c != sep) :: rest := by
  induction s with
  | nil => exact ⟨[], rfl⟩
  | cons c cs ih =>
    obtain ⟨rest, hrest⟩ := ih
    unfold Split
    by_cases h : c = sep
    · exact ⟨Split cs sep, by simp [h]⟩
    · exact ⟨rest, by simp [h, hrest]⟩

theorem Split_eq_splitOn (s : Str) (sep : Nat) : Split s sep = s.splitOn sep := by
  induction s with
  | nil => rfl
  | cons c cs ih =>
    obtain ⟨rest, hrest⟩ := Split_eq_cons cs sep
    unfold Split
    rw [List.splitOn, List.splitOnP_cons, ← List.splitOn, ← ih]
    by_cases h : c = sep
    · simp [h]
    · simp [h, hrest]

theorem HasPrefix_iff (s p : Str) : HasPrefix s p = true ↔ p <+: s := by
  induction p generalizing s with
  | nil => cases s <;> simp only [HasPrefix, List.nil_prefix]
  | cons a p ih =>
    cases s with
    | nil => simp only [HasPrefix, List.prefix_nil]; simp
    | cons c cs =>
      simp only [HasPrefix, Bool.and_eq_true, decide_eq_true_eq, ih, List.cons_prefix_cons]
      exact ⟨fun h => ⟨h.1.symm, h.2⟩, fun h => ⟨h.1.symm, h.2⟩⟩

theorem Contains_iff (s substr : Str) : Contains s substr = true ↔ substr <:+: s := by
  induction s with
  | nil => simp [Contains, HasPrefix_iff]
  | cons c cs ih =>
    simp only [Contains, Bool.or_eq_true, HasPrefix_iff, ih]
    exact List.infix_cons_iff.symm

/-- With as much fuel as `s` has bytes, `dropLeading` stops only where none of
the (non-empty) `encs` starts the rest: the fuel never cuts the trimming short. -/
theorem dropLeading_complete (encs : List Str) (hne : ∀ e ∈ encs, e ≠ []) (fuel : Nat)
    (s : Str) (hfuel : s.length ≤ fuel) :
    encs.find? (fun e => HasPrefix (dropLeading encs fuel s) e) = none := by
  induction fuel generalizing s with
  | zero =>
    have hs : s = [] := List.length_eq_zero.mp (Nat.le_zero.mp hfuel)
    subst hs
    rw [List.find?_eq_none]
    intro e he
    cases e with
    | nil => exact absurd rfl (hne [] he)
    | cons a e => simp [dropLeading, HasPrefix]
  | succ fuel ih =>
    unfold dropLeading
    cases hf : encs.find? (fun e => HasPrefix s e) with
    | none => simpa using hf
    | some e =>
      have he : e ∈ encs := List.mem_of_find?_eq_some hf
      have hlen : 0 < e.length := List.length_pos.mpr (hne e he)
      apply ih
      rw [List.length_drop]
      omega

/-- The result of `TrimSpace` does not end with a white-space character. -/
theorem TrimSpace_no_trailing_space (s : Str) :
    ∀ e ∈ spaceEncodings, ¬ e <:+ TrimSpace s := by
  intro e he hs
  have hp : e.reverse <+: (TrimSpace s).reverse := List.reverse_prefix.mpr hs
  have hne : ∀ e ∈ spaceEncodings.map List.reverse, e ≠ [] := by decide
  have h := dropLeading_complete (spaceEncodings.map List.reverse) hne
    (dropLeading spaceEncodings s.length s).length
    (dropLeading spaceEncodings s.length s).reverse (by simp)
  rw [List.find?_eq_none] at h
  have h1 := h e.reverse (List.mem_map_of_mem _ he)
  rw [TrimSpace, List.reverse_reverse] at hp
  exact h1 ((HasPrefix_iff _ _).mpr hp)

/-! ## The order of `sort.Strings` -/

theorem strLess_iff_lex (a b : Str) : strLess a b = true ↔ List.Lex (· < ·) a b := by
  induction a generalizing b with
  | nil =>
    cases b with
    | nil => simp [strLess, List.Lex.not_nil_right]
    | cons y ys => simp [strLess, List.Lex.nil]
  | cons x xs ih =>
    cases b with
    | nil => simp [strLess, List.Lex.not_nil_right]
    | cons y ys =>
      unfold strLess
      rcases Nat.lt_trichotomy x y with h | h | h
      · simp [h, List.Lex.rel]
      · subst h
        simp only [lt_self_iff_false, if_false, ih]
        exact ⟨List.Lex.cons, fun h => by
          rcases List.Lex.cons_iff.mp h with h1; exact h1⟩
      · have h1 : ¬ x < y := Nat.lt_asymm h
        simp only [h1, h, if_false, if_true]
        constructor
        · intro h2; cases h2
        · intro h2
          cases h2 with
          | cons h3 => exact absurd h (Nat.lt_irrefl _)
          | rel h3 => exact absurd h3 h1

theorem strLe_iff (a b : Str) : strLe a b ↔ a = b ∨ List.Lex (· < ·) a b := by
  have hb : strLess b a = false ↔ ¬ List.Lex (· < ·) b a := by
    rw [← strLess_iff_lex]; simp
  unfold strLe
  rw [hb]
  constructor
  · intro h
    rcases (List.Lex.isTrichotomous (· < · : Nat → Nat → Prop)).trichotomous a b with h1 | h1 | h1
    · exact Or.inr h1
    · exact Or.inl h1
    · exact absurd h1 h
  · rintro (h | h)
    · subst h
      exact (List.Lex.isAsymm (· < · : Nat → Nat → Prop)).asymm a a |> fun f h => f h h
    · exact fun h1 => (List.Lex.isAsymm (· < · : Nat → Nat → Prop)).asymm a b h h1

theorem strLe_isTotal : IsTotal Str strLe where
  total a b := by
    rw [strLe_iff, strLe_iff]
    rcases (List.Lex.isTrichotomous (· < · : Nat → Nat → Prop)).trichotomous a b with h | h | h
    · exact Or.inl (Or.inr h)
    · exact Or.inl (Or.inl h)
    · exact Or.inr (Or.inr h)

theorem strLe_isTrans : IsTrans Str strLe where
  trans a b c := by
    rw [strLe_iff, strLe_iff, strLe_iff]
    rintro (h1 | h1) (h2 | h2)
    · exact Or.inl (h1.trans h2)
    · exact Or.inr (h1 ▸ h2)
    · exact Or.inr (h2 ▸ h1)
    · exact Or.inr (@IsTrans.trans _ (List.Lex (· < · : Nat → Nat → Prop)) _ a b c h1 h2)

theorem strLe_isAntisymm : IsAntisymm Str strLe where
  antisymm a b := by
    rw [strLe_iff, strLe_iff]
    rintro (h1 | h1) (h2 | h2)
    · exact h1
    · exact h1
    · exact h2.symm
    · exact absurd h2 ((List.Lex.isAsymm (· < · : Nat → Nat → Prop)).asymm a b h1)

theorem sortStrings_sorted (x : List Str) : List.Sorted strLe (sortStrings x) :=
  @List.sorted_insertionSort _ strLe _ strLe_isTotal strLe_isTrans x

theorem sortStrings_perm (x : List Str) : (sortStrings x).Perm x :=
  List.perm_insertionSort strLe x

/-- The increasing rearrangement of a list of strings is unique: whatever
`sort.Strings` does internally, its result is `sortStrings x`. -/
theorem sortStrings_unique (x y : List Str) (hp : y.Perm x) (hs : List.Sorted strLe y) :
    y = sortStrings x :=
  @List.eq_of_perm_of_sorted _ strLe strLe_isAntisymm _ _
    (hp.trans (sortStrings_perm x).symm) hs (sortStrings_sorted x)

/-! ## Lemmas on the loops -/

theorem step_eq (linterList : List Str) (line : Str) :
    fetchLinterList.step linterList line =
      if Spec.keep (Spec.token line) then linterList ++ [Spec.token line] else linterList := by
  obtain ⟨r1, h1⟩ := Split_eq_cons line colon
  obtain ⟨r2, h2⟩ := Split_eq_cons (line.takeWhile (fun c => c != colon)) space
  unfold fetchLinterList.step
  rw [h1]
  simp only
  rw [h2]
  simp only
  have hk : Spec.keep (Spec.token line) = true ↔
      ¬ (Contains (Spec.token line) Disabled || Contains (Spec.token line) Enabled
          || (Spec.token line).length == 0) = true := by
    simp only [Spec.keep, Bool.or_eq_true, Contains_iff, decide_eq_true_eq, beq_iff_eq,
      List.length_eq_zero]
    tauto
  change (if (Contains (Spec.token line) Disabled || Contains (Spec.token line) Enabled
      || (Spec.token line).length == 0) = true then _ else _) = _
  by_cases hc : (Contains (Spec.token line) Disabled || Contains (Spec.token line) Enabled
      || (Spec.token line).length == 0) = true
  · rw [if_pos hc, if_neg (fun h => hk.mp h hc)]
  · rw [if_neg hc, if_pos (hk.mpr hc)]
    rfl

theorem foldl_step (lineList acc : List Str) :
    lineList.foldl fetchLinterList.step acc = acc ++ Spec.tokensOfLines lineList := by
  induction lineList generalizing acc with
  | nil => simp [Spec.tokensOfLines]
  | cons line rest ih =>
    rw [List.foldl_cons, ih, step_eq]
    by_cases hk : Spec.keep (Spec.token line) = true
    · simp [Spec.tokensOfLines, hk]
    · simp [Spec.tokensOfLines, hk]

theorem collect_eq (lineList : List Str) :
    fetchLinterList.collect lineList = Spec.tokensOfLines lineList := by
  simp [fetchLinterList.collect, foldl_step]

theorem parse_eq (stdout : Str) :
    fetchLinterList.parse stdout = sortStrings (Spec.tokens stdout) := by
  simp [fetchLinterList.parse, fetchLinterList.parseLines, collect_eq, Spec.tokens,
    Split_eq_splitOn]

theorem mem_parse (stdout e : Str) :
    e ∈ fetchLinterList.parse stdout ↔ e ∈ Spec.tokens stdout := by
  rw [parse_eq]
  exact (sortStrings_perm _).mem_iff

theorem filter_foldl (linterList acc : List Str) (disabledDict : Dict) :
    linterList.foldl
      (fun filteredLinterList linter =>
        if !disabledDict.has linter then filteredLinterList ++ [linter]
        else filteredLinterList) acc
      = acc ++ linterList.filter (fun x => !disabledDict.has x) := by
  induction linterList generalizing acc with
  | nil => simp
  | cons x xs ih =>
    rw [List.foldl_cons, ih]
    cases h : disabledDict.has x <;> simp [h]

theorem filter_eq (linterList : List Str) (disabledDict : Dict) :
    main.filter linterList disabledDict
      = linterList.filter (fun x => !disabledDict.has x) := by
  unfold main.filter
  rw [filter_foldl]
  rfl

theorem mem_set (d : Dict) (k s : Str) : s ∈ (d.set k).keys ↔ s = k ∨ s ∈ d.keys := by
  unfold Dict.set
  by_cases h : k ∈ d.keys
  · rw [if_pos h]
    exact ⟨Or.inr, fun h1 => h1.elim (fun h2 => h2 ▸ h) id⟩
  · rw [if_neg h]
    exact List.mem_cons

theorem mem_foldl_set (f : Str → Str) (lineList : List Str) (d : Dict) (s : Str) :
    s ∈ (lineList.foldl (fun dict line => dict.set (f line)) d).keys
      ↔ s ∈ d.keys ∨ ∃ line ∈ lineList, s = f line := by
  induction lineList generalizing d with
  | nil => simp
  | cons line rest ih =>
    rw [List.foldl_cons, ih, mem_set]
    constructor
    · rintro ((h | h) | ⟨l, hl, h⟩)
      · exact Or.inr ⟨line, List.mem_cons_self _ _, h⟩
      · exact Or.inl h
      · exact Or.inr ⟨l, List.mem_cons_of_mem _ hl, h⟩
    · rintro (h | ⟨l, hl, h⟩)
      · exact Or.inl (Or.inr h)
      · rcases List.mem_cons.mp hl with h1 | h1
        · exact Or.inl (Or.inl (h1 ▸ h))
        · exact Or.inr ⟨l, h1, h⟩

theorem foldl_set_nodup (f : Str → Str) (lineList : List Str) (d : Dict)
    (hd : d.keys.Nodup) :
    (lineList.foldl (fun dict line => dict.set (f line)) d).keys.Nodup := by
  induction lineList generalizing d with
  | nil => exact hd
  | cons line rest ih =>
    rw [List.foldl_cons]
    apply ih
    unfold Dict.set
    by_cases h : f line ∈ d.keys
    · rw [if_pos h]; exact hd
    · rw [if_neg h]; exact List.nodup_cons.mpr ⟨h, hd⟩

theorem has_build (data s : Str) :
    (readDisabledDict.build data).has s = true
      ↔ ∃ line ∈ Split data newline, s = TrimSpace line := by
  simp [Dict.has, readDisabledDict.build, mem_foldl_set, Dict.empty]

theorem token_no_sep (line : Str) : colon ∉ Spec.token line ∧ space ∉ Spec.token line := by
  constructor
  · intro h
    have h1 : colon ∈ line.takeWhile (fun c => c != colon) :=
      (List.takeWhile_sublist _).subset h
    simpa using List.mem_takeWhile_imp h1
  · intro h
    simpa using List.mem_takeWhile_imp h

theorem parseLines_perm (l1 l2 : List Str) (h : l1.Perm l2) :
    fetchLinterList.parseLines l1 = fetchLinterList.parseLines l2 := by
  unfold fetchLinterList.parseLines
  apply sortStrings_unique
  · rw [collect_eq, collect_eq]
    exact (sortStrings_perm _).trans ((h.map _).filter _)
  · exact sortStrings_sorted _

/-! ## The claims -/

/-- C1: the filter loop of `main` returns exactly the elements of the candidate
list that are not keys of the disabled map, in the order of the list: no
element of the result is a key, the result is a subsequence of the list, every
element of the list that is not a key is kept, and the empty list gives the
empty result; `["bar","foo","zzz"]` with `{"foo"}` gives `["bar","zzz"]`. -/
theorem main_filter_subsequence (L : List Str) (D : Dict) :
    main.filter L D = L.filter (fun x => decide (x ∉ D.keys)) ∧
    (∀ x ∈ main.filter L D, D.has x = false) ∧
    (main.filter L D).Sublist L ∧
    (∀ x ∈ L, D.has x = false → x ∈ main.filter L D) ∧
    main.filter [] D = [] ∧
    main.filter [ascii "bar", ascii "foo", ascii "zzz"] ⟨[ascii "foo"]⟩
      = [ascii "bar", ascii "zzz"] := by
  refine ⟨?_, ?_, ?_, ?_, rfl, by decide⟩
  · rw [filter_eq]
    apply List.filter_congr
    intro x _
    simp [Dict.has]
  · intro x hx
    rw [filter_eq, List.mem_filter] at hx
    simpa using hx.2
  · rw [filter_eq]
    exact List.filter_sublist _
  · intro x hx hd
    rw [filter_eq, List.mem_filter]
    exact ⟨hx, by simp [hd]⟩

/-- C2: the list returned by the parsing part of `fetchLinterList` is the
ascending sort of the tokens of the specification (per line: the portion before
the first `:`, then before the first space, kept when non-empty and free of
`"Disabled"` and `"Enabled"`): it is sorted and a rearrangement of those tokens,
for a text and for any list of lines; the four lines of the example give
`["bar", "foo"]`. -/
theorem fetchLinterList_parse_sorted_tokens (stdout : Str) :
    fetchLinterList.parse stdout = sortStrings (Spec.tokens stdout) ∧
    List.Sorted strLe (fetchLinterList.parse stdout) ∧
    (fetchLinterList.parse stdout).Perm (Spec.tokens stdout) ∧
    (∀ lineList, fetchLinterList.parseLines lineList
      = sortStrings (Spec.tokensOfLines lineList)) ∧
    Split (ascii "foo: desc\nEnabled by default:\nbar:desc2\n") newline
      = [ascii "foo: desc", ascii "Enabled by default:", ascii "bar:desc2", ascii ""] ∧
    fetchLinterList.parseLines
        [ascii "foo: desc", ascii "Enabled by default:", ascii "bar:desc2", ascii ""]
      = [ascii "bar", ascii "foo"] := by
  refine ⟨parse_eq stdout, ?_, ?_, ?_, by decide, by decide⟩
  · rw [parse_eq]
    exact sortStrings_sorted _
  · rw [parse_eq]
    exact sortStrings_perm _
  · intro lineList
    rw [fetchLinterList.parseLines, collect_eq]

/-- C3: when the subprocess succeeds, `fetchLinterList` returns a list in
ascending byte-wise lexicographic order: every entry is equal to or
lexicographically below the entry that follows it (and below every later one). -/
theorem fetchLinterList_ascending (stdout stderr : Str) :
    ∃ l, fetchLinterList ⟨none, stdout, stderr⟩ = .ok l ∧
      List.Chain' (fun a b => a = b ∨ List.Lex (· < ·) a b) l ∧
      List.Sorted strLe l := by
  refine ⟨fetchLinterList.parse stdout, rfl, ?_, ?_⟩
  · have h : List.Sorted strLe (fetchLinterList.parse stdout) := by
      rw [parse_eq]
      exact sortStrings_sorted _
    exact h.chain'.imp (fun a b hab => (strLe_iff a b).mp hab)
  · rw [parse_eq]
    exact sortStrings_sorted _

/-- C4: the list returned by the parsing of `fetchLinterList` does not depend on
the order of the lines: two lists of lines that are permutations of each other
parse to the same list, and so do the two texts that join them with newlines
when no line holds a newline. -/
theorem fetchLinterList_order_independent (l1 l2 : List Str) (h : l1.Perm l2) :
    fetchLinterList.parseLines l1 = fetchLinterList.parseLines l2 ∧
    ((∀ l ∈ l1, newline ∉ l) →
      fetchLinterList.parse ([newline].intercalate l1)
        = fetchLinterList.parse ([newline].intercalate l2)) := by
  refine ⟨parseLines_perm l1 l2 h, fun hn => ?_⟩
  by_cases he : l1 = []
  · subst he
    rw [List.nil_perm.mp h]
  · have he2 : l2 ≠ [] := fun h2 => he (List.perm_nil.mp (h2 ▸ h))
    have hn2 : ∀ l ∈ l2, newline ∉ l := fun l hl => hn l (h.mem_iff.mpr hl)
    unfold fetchLinterList.parse
    rw [Split_eq_splitOn, Split_eq_splitOn, List.splitOn_intercalate _ newline hn he,
      List.splitOn_intercalate _ newline hn2 he2]
    exact parseLines_perm l1 l2 h

/-- Witness of C4 on the lines `foo: desc` and `bar:desc2` in both orders. -/
theorem fetchLinterList_order_independent_witness :
    [ascii "foo: desc", ascii "bar:desc2"].Perm [ascii "bar:desc2", ascii "foo: desc"] ∧
    fetchLinterList.parseLines [ascii "foo: desc", ascii "bar:desc2"]
      = fetchLinterList.parseLines [ascii "bar:desc2", ascii "foo: desc"] ∧
    fetchLinterList.parse (ascii "foo: desc\nbar:desc2")
      = fetchLinterList.parse (ascii "bar:desc2\nfoo: desc") :=
  ⟨List.Perm.swap _ _ _,
   (fetchLinterList_order_independent _ _ (List.Perm.swap _ _ _)).1,
   (fetchLinterList_order_independent [ascii "foo: desc", ascii "bar:desc2"]
      [ascii "bar:desc2", ascii "foo: desc"] (List.Perm.swap _ _ _)).2 (by decide)⟩

/-- C5: every entry of the list returned by the parsing of `fetchLinterList` is
a non-empty string in which neither `"Disabled"` nor `"Enabled"` occurs and
which holds no `:` and no space. -/
theorem fetchLinterList_entries_clean (stdout : Str) :
    ∀ e ∈ fetchLinterList.parse stdout,
      e ≠ [] ∧ ¬ Disabled <:+: e ∧ ¬ Enabled <:+: e ∧
      Contains e Disabled = false ∧ Contains e Enabled = false ∧
      colon ∉ e ∧ space ∉ e := by
  intro e he
  rw [mem_parse, Spec.tokens, Spec.tokensOfLines, List.mem_filter, List.mem_map] at he
  obtain ⟨⟨line, _, hline⟩, hk⟩ := he
  simp only [Spec.keep, decide_eq_true_eq] at hk
  have hs := token_no_sep line
  rw [hline] at hs
  refine ⟨hk.1, hk.2.1, hk.2.2, ?_, ?_, hs.1, hs.2⟩
  · rw [← Bool.not_eq_true, Contains_iff]
    exact hk.2.1
  · rw [← Bool.not_eq_true, Contains_iff]
    exact hk.2.2

/-- Witness of C5 on the entry `foo` of the list parsed from the example text. -/
theorem fetchLinterList_entries_clean_witness :
    ascii "foo" ∈ fetchLinterList.parse (ascii "foo: desc\nEnabled by default:\nbar:desc2\n") ∧
    (ascii "foo" ≠ [] ∧ ¬ Disabled <:+: ascii "foo" ∧ ¬ Enabled <:+: ascii "foo" ∧
      Contains (ascii "foo") Disabled = false ∧ Contains (ascii "foo") Enabled = false ∧
      colon ∉ ascii "foo" ∧ space ∉ ascii "foo") :=
  ⟨by decide,
   fetchLinterList_entries_clean (ascii "foo: desc\nEnabled by default:\nbar:desc2\n")
     (ascii "foo") (by decide)⟩

/-- C6, counterexample: a text that names `foo` on two lines gives a list in
which `foo` occurs twice. -/
theorem fetchLinterList_duplicates :
    fetchLinterList.parse (ascii "foo: a\nfoo: b") = [ascii "foo", ascii "foo"] ∧
    ¬ (fetchLinterList.parse (ascii "foo: a\nfoo: b")).Nodup := by
  decide

/-- C6, amended: each name occurs in the list returned by the parsing of
`fetchLinterList` exactly as many times as the loop collected it from the
lines, so the list is free of duplicates exactly when the loop collected no
name twice. -/
theorem fetchLinterList_count_preserved (stdout : Str) :
    (∀ x, (fetchLinterList.parse stdout).countP (fun y => decide (y = x))
      = (fetchLinterList.collect (Split stdout newline)).countP (fun y => decide (y = x))) ∧
    ((fetchLinterList.parse stdout).Nodup
      ↔ (fetchLinterList.collect (Split stdout newline)).Nodup) := by
  have hp : (fetchLinterList.parse stdout).Perm
      (fetchLinterList.collect (Split stdout newline)) := sortStrings_perm _
  exact ⟨fun x => hp.countP_eq _, hp.nodup_iff⟩

/-- C7, counterexample: on the default content, which ends with a newline, the
empty string is a key of the map although it is not a non-empty string. -/
theorem readDisabledDict_empty_key :
    ¬ ((readDisabledDict.build disabledBase).has [] = true ↔
        (([] : Str) ≠ [] ∧ ∃ line ∈ Split disabledBase newline, [] = TrimSpace line)) ∧
    (readDisabledDict emptyFS).1
      = .ok ⟨[[], ascii "scopelint", ascii "maligned", ascii "interfacer", ascii "golint"]⟩ := by
  constructor
  · intro h
    have h1 : (readDisabledDict.build disabledBase).has [] = true := by decide
    exact (h.mp h1).1 rfl
  · rfl

/-- C7, amended: a string is a key of the map built by `readDisabledDict`
exactly when it is the trimmed form of some newline-separated line of the
content, the empty string included when a line is empty or only white space;
every key is listed once. -/
theorem readDisabledDict_keys (data : Str) :
    (∀ s, (readDisabledDict.build data).has s = true
      ↔ ∃ line ∈ data.splitOn newline, s = TrimSpace line) ∧
    ((readDisabledDict.build data).has [] = true
      ↔ ∃ line ∈ data.splitOn newline, TrimSpace line = []) ∧
    (readDisabledDict.build data).keys.Nodup := by
  refine ⟨fun s => ?_, ?_, ?_⟩
  · rw [has_build, Split_eq_splitOn]
  · rw [has_build, Split_eq_splitOn]
    exact ⟨fun ⟨l, hl, h⟩ => ⟨l, hl, h.symm⟩, fun ⟨l, hl, h⟩ => ⟨l, hl, h.symm⟩⟩
  · unfold readDisabledDict.build
    exact foldl_set_nodup _ _ _ List.nodup_nil

/-- C8: when `os.Stat` does not fail for another reason than absence: at a path
without a file where the write succeeds, `readFile` returns the default content
without error and leaves a file system in which that path holds exactly the
default content and every other path is as before; at a path with a readable
file, `readFile` returns the full content of the file and leaves the file
system as it was. -/
theorem readFile_seeds_or_reads (fs : FS) (name base : Str)
    (hstat : fs.statFails name = false) :
    (fs.files name = none → fs.writeFails name = false →
      (readFile fs name base).1 = .ok base ∧
      (readFile fs name base).2.files name = some base ∧
      ∀ p, p ≠ name → (readFile fs name base).2.files p = fs.files p) ∧
    (∀ data, fs.files name = some data → fs.readFails name = false →
      readFile fs name base = (.ok data, fs)) := by
  constructor
  · intro hnone hwrite
    simp only [readFile, FS.stat, FS.write, hstat, hnone, hwrite, OsErr.isNotExist]
    refine ⟨rfl, by simp, fun p hp => by simp [hp]⟩
  · intro data hsome hread
    simp [readFile, FS.stat, FS.read, hstat, hsome, hread]

/-- Witness of C8: on the empty file system the disabled list is seeded with
`disabledBase`; on a file system that holds `golint` there, that is returned. -/
theorem readFile_seeds_or_reads_witness :
    (readFile emptyFS disabledPath disabledBase).1 = .ok disabledBase ∧
    (readFile emptyFS disabledPath disabledBase).2.files disabledPath = some disabledBase ∧
    readFile golintFS disabledPath disabledBase = (.ok (ascii "golint"), golintFS) :=
  ⟨((readFile_seeds_or_reads emptyFS disabledPath disabledBase rfl).1 rfl rfl).1,
   ((readFile_seeds_or_reads emptyFS disabledPath disabledBase rfl).1 rfl rfl).2.1,
   (readFile_seeds_or_reads golintFS disabledPath disabledBase rfl).2 (ascii "golint")
     (by decide) rfl⟩

/-- C9, counterexample: the line `foo: Enabled by default` contains `"Enabled"`
and still contributes the identifier `foo`. -/
theorem fetchLinterList_marker_after_token :
    Enabled <:+: ascii "foo: Enabled by default" ∧
    fetchLinterList.step [] (ascii "foo: Enabled by default") = [ascii "foo"] ∧
    fetchLinterList.parse (ascii "foo: Enabled by default") = [ascii "foo"] := by
  decide

/-- C9, amended: a line whose first token (the portion before the first `:`,
then before the first space) contains `"Disabled"` or `"Enabled"` is skipped by
the loop of `fetchLinterList`: the iteration leaves `linterList` as it was, and
the returned list is the one obtained without the line. -/
theorem fetchLinterList_skips_marker_token (line : Str)
    (h : Disabled <:+: Spec.token line ∨ Enabled <:+: Spec.token line) :
    (∀ linterList, fetchLinterList.step linterList line = linterList) ∧
    (∀ before after, fetchLinterList.parseLines (before ++ line :: after)
      = fetchLinterList.parseLines (before ++ after)) := by
  have hk : Spec.keep (Spec.token line) = false := by
    simp only [Spec.keep, decide_eq_false_iff_not]
    tauto
  constructor
  · intro linterList
    rw [step_eq, hk]
    rfl
  · intro before after
    simp only [fetchLinterList.parseLines, collect_eq, Spec.tokensOfLines, List.map_append,
      List.map_cons, List.filter_append, List.filter_cons, hk]
    rfl

/-- Witness of C9 on the header line `Enabled by default linters:`. -/
theorem fetchLinterList_skips_marker_token_witness :
    (Disabled <:+: Spec.token (ascii "Enabled by default linters:") ∨
      Enabled <:+: Spec.token (ascii "Enabled by default linters:")) ∧
    (∀ linterList,
      fetchLinterList.step linterList (ascii "Enabled by default linters:") = linterList) ∧
    (∀ before after,
      fetchLinterList.parseLines (before ++ ascii "Enabled by default linters:" :: after)
        = fetchLinterList.parseLines (before ++ after)) :=
  ⟨by decide, fetchLinterList_skips_marker_token _ (by decide)⟩

/-- C10: filtering the list returned by the parsing of `fetchLinterList` with the
map built by `readDisabledDict` gives the same list as filtering it with the
set of the non-empty trimmed lines only: the empty key, present exactly when
some line is empty or only white space, removes no entry. -/
theorem main_filter_empty_key_harmless (content stdout : Str) :
    main.filter (fetchLinterList.parse stdout) (readDisabledDict.build content)
      = main.filter (fetchLinterList.parse stdout) (Spec.disabledSet content) ∧
    (∀ s, (Spec.disabledSet content).has s = true
      ↔ (s ≠ [] ∧ (readDisabledDict.build content).has s = true)) ∧
    (readDisabledDict.build (ascii "golint\n")).has [] = true ∧
    (Spec.disabledSet (ascii "golint\n")).has [] = false := by
  have hs : ∀ s, (Spec.disabledSet content).has s = true
      ↔ (s ≠ [] ∧ (readDisabledDict.build content).has s = true) := by
    intro s
    rw [has_build, Split_eq_splitOn]
    simp only [Dict.has, Spec.disabledSet, decide_eq_true_eq, List.mem_dedup, List.mem_filter,
      List.mem_map]
    constructor
    · rintro ⟨⟨l, hl, h⟩, hne⟩
      exact ⟨hne, l, hl, h.symm⟩
    · rintro ⟨hne, l, hl, h⟩
      exact ⟨⟨l, hl, h.symm⟩, hne⟩
  refine ⟨?_, hs, by decide, by decide⟩
  rw [filter_eq, filter_eq]
  apply List.filter_congr
  intro x hx
  have hne : x ≠ [] := by
    rw [mem_parse, Spec.tokens, Spec.tokensOfLines, List.mem_filter] at hx
    have := hx.2
    simp only [Spec.keep, decide_eq_true_eq] at this
    exact this.1
  have h1 := hs x
  cases hb : (readDisabledDict.build content).has x <;>
    cases hd : (Spec.disabledSet content).has x <;> simp_all

end GolangciConfigGenerator
